import Mathlib

/-!
# A shallow embedding of the codexrag retrieval core

This file embeds the data model and the operations of the `codexrag`
repository (fusion retrieval, graph expansion, confidence-gated
refinement, chunk splitting) as executable Lean definitions, translated
from the Python sources, and proves the behavioural properties stated
about them.

Conventions of the embedding:
* Python `float` scores are modelled as `Rat` (the constants involved,
  `0.8`, `0.3`, `0.5`, `0.7`, `1.5`, `0.75`, are all exact decimals).
* Python `dict` metadata is an association list with unique keys in
  insertion order; values are strings or integers (`MetaVal`).
* External numeric collaborators (the sentence-transformer embedding
  model, the faiss inner-product index, the cross-encoder reranker
  scores, the idf table computed with logarithms inside the `rank_bm25`
  library, and the sha256 digest) are abstract function parameters:
  their outputs are data the code consumes, and no property proved here
  depends on their values.  Everything the repository itself computes is
  embedded concretely.
-/

namespace CodexRAG

/- The Batteries rational-number operations are `@[irreducible]` by
default; re-marking them semireducible lets `decide` evaluate the
concrete score computations below in the kernel. -/
attribute [local semireducible] Rat.mul Rat.add Rat.sub Rat.inv Rat.ofScientific

/-! ## Data model (`codexrag/types.py`) -/

/-- A metadata value: Python chunk metadata holds strings and ints. -/
inductive MetaVal where
  | s (v : String)
  | i (v : Int)
deriving DecidableEq, Repr

/-- A Python dict used as chunk metadata: association list, unique keys,
insertion order. -/
abbrev Meta := List (String × MetaVal)

/-- `d.get(k)`: the value stored at key `k`, if any. -/
def Meta.get (m : Meta) (k : String) : Option MetaVal :=
  (m.find? (fun p => p.1 = k)).map (fun p => p.2)

/-- `d[k] = v`: replace the binding in place when the key exists,
append it otherwise. -/
def Meta.set (m : Meta) (k : String) (v : MetaVal) : Meta :=
  if (m.find? (fun p => p.1 = k)).isSome then
    m.map (fun p => if p.1 = k then (k, v) else p)
  else
    m ++ [(k, v)]

/-- `d.update(pairs)`: set every pair in order. -/
def Meta.updateAll (m : Meta) (pairs : List (String × MetaVal)) : Meta :=
  pairs.foldl (fun acc p => acc.set p.1 p.2) m

/-! Character-level string helpers.  The core `String.startsWith`,
`String.splitOn`, `String.intercalate` and numeral printing run on
substring machinery the kernel cannot reduce, so the embedding uses
these list-level equivalents of the corresponding Python operations. -/

/-- Python `s.startswith(pre)`. -/
def strStartsWith (s pre : String) : Bool :=
  pre.toList.isPrefixOf s.toList

/-- Python `s.split(sep)` for a one-character separator. -/
def splitOnChar (c : Char) : List Char → List (List Char)
  | [] => [[]]
  | d :: rest =>
    let r := splitOnChar c rest
    if d = c then [] :: r
    else
      match r with
      | g :: gs => (d :: g) :: gs
      | [] => [[d]]

/-- Python `sep.join(parts)`. -/
def joinWith (sep : String) : List String → String
  | [] => ""
  | [s] => s
  | s :: rest => s ++ sep ++ joinWith sep rest

/-- The decimal digits of a natural number (fuel-indexed for
structural recursion; `fuel = n` suffices). -/
def natDigits : Nat → Nat → List Char
  | 0, _ => []
  | fuel + 1, n =>
    if n < 10 then [Nat.digitChar n]
    else natDigits fuel (n / 10) ++ [Nat.digitChar (n % 10)]

/-- Python `str(n)` for a natural number. -/
def natToStr (n : Nat) : String :=
  String.mk (natDigits (n + 1) n)

/-- Python `str(i)` for an integer. -/
def intToStr : Int → String
  | .ofNat n => natToStr n
  | .negSucc n => "-" ++ natToStr (n + 1)

/-- `Chunk` from `codexrag/types.py`: a fragment of indexed text with a
stable id and metadata. -/
structure Chunk where
  chunk_id : String
  text : String
  meta : Meta
deriving DecidableEq, Repr

/-- `RetrievalHit` from `codexrag/types.py`: a chunk with a score. -/
structure RetrievalHit where
  score : Rat
  chunk : Chunk
deriving DecidableEq, Repr

/-! ## Chunk splitting (`codexrag/chunking.py`)

`split_long_chunks` copies short chunks through and cuts long ones into
overlapping windows.  The inner `while` loop need not terminate (when
`overlap_chars >= max_chars` the window start never advances), so the
embedding is fuel-indexed: `none` means the fuel ran out.  The digest
`sha256_text` from `codexrag/utils_hash.py` is an abstract `hash`
parameter; its value only names the new pieces. -/

/-- `text[start:end]` on the character list of a string. -/
def strSlice (text : String) (start stop : Nat) : String :=
  String.mk ((text.toList.drop start).take (stop - start))

/-- The body of the `while start < len(text)` loop of
`split_long_chunks`, for one oversized chunk.  `start` and `part` are
the Python loop variables, `acc` is the accumulated output.  Python's
`start = max(0, end - overlap_chars)` is `Nat` truncated subtraction. -/
def splitChunkLoop (hash : String → String) (ch : Chunk)
    (maxChars overlapChars : Nat) :
    Nat → Nat → Nat → List Chunk → Option (List Chunk)
  | 0, _, _, _ => none
  | fuel + 1, start, part, acc =>
    if start < ch.text.length then
      let stop := min ch.text.length (start + maxChars)
      let piece := strSlice ch.text start stop
      let part' := part + 1
      let cid := hash
        (ch.chunk_id ++ ":part" ++ toString part' ++ ":" ++
          toString start ++ ":" ++ toString stop)
      let meta := ch.meta.updateAll
        [("part", .i part'), ("char_start", .i start), ("char_end", .i stop)]
      let acc' := acc ++ [Chunk.mk cid piece meta]
      if stop = ch.text.length then some acc'
      else splitChunkLoop hash ch maxChars overlapChars fuel
        (stop - overlapChars) part' acc'
    else some acc

/-- `split_long_chunks(chunks, max_chars, overlap_chars)`, fuel-indexed:
short chunks pass through unchanged, long ones go through the window
loop. -/
def splitLongChunks (hash : String → String)
    (chunks : List Chunk) (maxChars overlapChars fuel : Nat) :
    Option (List Chunk) :=
  match chunks with
  | [] => some []
  | ch :: rest =>
    if ch.text.length ≤ maxChars then
      (splitLongChunks hash rest maxChars overlapChars fuel).map (ch :: ·)
    else
      match splitChunkLoop hash ch maxChars overlapChars fuel 0 0 [] with
      | none => none
      | some pieces =>
        (splitLongChunks hash rest maxChars overlapChars fuel).map
          (pieces ++ ·)

/-! ## Fragment store (`codexrag/index_store.py`)

The store holds the chunk list, an optional BM25 lexical index and an
optional vector index.  `rank_bm25`'s `BM25Okapi.get_scores` is embedded
(sum over query terms of the Okapi term contribution, `k1 = 1.5`,
`b = 0.75`); its idf table is computed with logarithms inside the
library and is therefore an abstract field — no property proved here
depends on idf values.  The sentence-transformer encoder composed with
the faiss inner-product search is abstracted into one function from a
query and `k` to `(index, score)` rows, exactly the data
`IndexStore._hits_from` consumes. -/

/-- A character counted by the regex class `[A-Za-z0-9_]` of
`_tokenize` (and by `\w` for the ASCII inputs considered here). -/
def isWordChar (c : Char) : Bool :=
  (('A' ≤ c ∧ c ≤ 'Z') ∨ ('a' ≤ c ∧ c ≤ 'z') ∨ ('0' ≤ c ∧ c ≤ '9') ∨ c = '_')

/-- The maximal runs of word characters of a character list: what
`re.split(r"[^A-Za-z0-9_]+", text)` keeps after dropping empty parts. -/
def wordRuns : List Char → List (List Char)
  | [] => []
  | c :: rest =>
    if isWordChar c then
      match wordRuns rest with
      | run :: runs =>
        if (match rest with | [] => false | d :: _ => isWordChar d) then
          (c :: run) :: runs
        else [c] :: run :: runs
      | [] => [[c]]
    else wordRuns rest

/-- `_tokenize(text)` from `codexrag/index_store.py`. -/
def tokenize (text : String) : List String :=
  (wordRuns text.toList).map String.mk

/-- The state of a built `BM25Okapi` index: the tokenized corpus plus
the library's idf table (abstract, see the section comment). -/
structure BM25 where
  corpus : List (List String)
  idf : String → Rat

/-- Okapi parameter `k1` (rank_bm25 default). -/
def BM25.k1 : Rat := 3/2

/-- Okapi parameter `b` (rank_bm25 default). -/
def BM25.b : Rat := 3/4

/-- Average document length of the corpus. -/
def BM25.avgdl (m : BM25) : Rat :=
  ((m.corpus.map List.length).sum : Nat) / (m.corpus.length : Rat)

/-- One document's Okapi score contribution for one query term:
`idf(q) * f*(k1+1) / (f + k1*(1 - b + b*dl/avgdl))` with `f` the term
frequency in the document. -/
def BM25.termScore (m : BM25) (q : String) (doc : List String) : Rat :=
  let f : Rat := (doc.count q : Nat)
  m.idf q * (f * (BM25.k1 + 1)) /
    (f + BM25.k1 * (1 - BM25.b + BM25.b * ((doc.length : Rat) / m.avgdl)))

/-- `BM25Okapi.get_scores(query)`: starts from the zero vector and adds
one term-contribution vector per query token. -/
def BM25.getScores (m : BM25) (query : List String) : List Rat :=
  query.foldl
    (fun acc q => List.zipWith (· + ·) acc (m.corpus.map (m.termScore q)))
    (m.corpus.map (fun _ => (0 : Rat)))

/-- `np.argsort(scores)[::-1][:k]`: indices of the scores sorted
descending, `k` first.  numpy's ascending argsort is modelled as a
structural insertion sort with the index as tie-break; no theorem below
depends on tie order. -/
def argsortDescTake (scores : List Rat) (k : Nat) : List Nat :=
  ((List.insertionSort
    (fun i j => scores.getD i 0 < scores.getD j 0 ∨
      (scores.getD i 0 = scores.getD j 0 ∧ i ≤ j))
    (List.range scores.length)).reverse).take k

/-- The fragment store.  `bm25 = none` models `self.bm25 is None` (no
lexical corpus); `faissIndex = none` models `self.faiss_index is None`;
a present `faissIndex` is the abstract encode-and-search function. -/
structure IndexStore where
  chunks : List Chunk
  bm25 : Option BM25
  faissIndex : Option (String → Nat → List (Int × Rat))

/-- `IndexStore._hits_from(idxs, scores)`: keep in-range indices and
pair each with its chunk. -/
def IndexStore.hitsFrom (store : IndexStore) (rows : List (Int × Rat)) :
    List RetrievalHit :=
  rows.filterMap (fun row =>
    if h : 0 ≤ row.1 ∧ row.1.toNat < store.chunks.length then
      some ⟨row.2, store.chunks.get ⟨row.1.toNat, h.2⟩⟩
    else none)

/-- `IndexStore.search_bm25(query, k)`. -/
def IndexStore.searchBm25 (store : IndexStore) (query : String) (k : Nat) :
    List RetrievalHit :=
  match store.bm25 with
  | none => []
  | some m =>
    let scores := m.getScores (tokenize query)
    let idxs := argsortDescTake scores k
    store.hitsFrom (idxs.map (fun (i : Nat) => ((i : Int), scores.getD i 0)))

/-- `IndexStore.search_vector(query, k)`. -/
def IndexStore.searchVector (store : IndexStore) (query : String) (k : Nat) :
    List RetrievalHit :=
  match store.faissIndex with
  | none => []
  | some f => store.hitsFrom (f query k)

/-! ## Score fusion (`codexrag/retriever.py` and `codexrag/rerank.py`) -/

/-- The loop of `_dedup(hits)` with its `seen` id set. -/
def dedupSeen (seen : List String) : List RetrievalHit → List RetrievalHit
  | [] => []
  | h :: rest =>
    if h.chunk.chunk_id ∈ seen then dedupSeen seen rest
    else h :: dedupSeen (h.chunk.chunk_id :: seen) rest

/-- `_dedup(hits)` from `codexrag/retriever.py`: keep the first
occurrence of every chunk id. -/
def dedup (hits : List RetrievalHit) : List RetrievalHit :=
  dedupSeen [] hits

/-- "`a` may come before `b`" in a score-descending order: Python's
stable `sort(key=lambda h: h.score, reverse=True)` produces the unique
`scoreGe`-sorted permutation that keeps the original order of
equal-score hits, which is what a stable structural insertion sort
computes. -/
def scoreGe (a b : RetrievalHit) : Prop := b.score ≤ a.score

instance : DecidableRel scoreGe :=
  fun a b => inferInstanceAs (Decidable (b.score ≤ a.score))

instance : IsTotal RetrievalHit scoreGe := ⟨fun a b => le_total b.score a.score⟩

instance : IsTrans RetrievalHit scoreGe :=
  ⟨fun _ _ _ hab hbc => le_trans hbc hab⟩

/-- A cross-encoder reranker.  `predict` abstracts
`CrossEncoder.predict` on the (query, text) pairs. -/
structure Reranker where
  predict : String → List String → List Rat

/-- `Reranker.rerank(query, hits, top_k)` from `codexrag/rerank.py`:
overwrite scores with the model's, sort stably by score descending
(Python's `sorted(..., reverse=True)`), truncate.  Hits beyond the
score list keep their old score, as in the Python in-place update. -/
def Reranker.rerank (r : Reranker) (query : String)
    (hits : List RetrievalHit) (topK : Nat) : List RetrievalHit :=
  let scores := r.predict query (hits.map (fun h => h.chunk.text))
  let updated := (List.zipWith (fun h s => { h with score := s }) hits scores)
    ++ hits.drop scores.length
  (List.insertionSort scoreGe updated).take topK

/-- `HybridRetriever`: the store plus an optional reranker. -/
structure HybridRetriever where
  store : IndexStore
  reranker : Option Reranker

/-- `HybridRetriever.retrieve(query, top_k_bm25, top_k_vector,
top_k_rerank)`: run both searches, concatenate lexical-first,
deduplicate, then rerank or truncate. -/
def HybridRetriever.retrieve (r : HybridRetriever) (query : String)
    (topKBm25 topKVector topKRerank : Nat) : List RetrievalHit :=
  let bm25 := r.store.searchBm25 query topKBm25
  let vec := r.store.searchVector query topKVector
  let merged := dedup (bm25 ++ vec)
  match r.reranker with
  | some rr => if merged ≠ [] then rr.rerank query merged topKRerank
               else merged.take topKRerank
  | none => merged.take topKRerank

/-! ## Code knowledge graph (`codexrag/graph/code_graph.py`)

`CodeGraph` keeps an entity dict, a file-to-entities dict, and a
networkx `DiGraph`.  The digraph is modelled by its node list and its
edge list `(source, target, relation)`; `add_edge` replaces the
relation attribute when the pair already exists and `add_node`/edge
endpoints populate the node set, both in insertion order. -/

/-- `CodeEntity` from `codexrag/graph/code_graph.py`. -/
structure CodeEntity where
  id : String
  name : String
  entity_type : String
  file_path : String
  line_start : Int := 0
  line_end : Int := 0
  docstring : Option String := none
  signature : Option String := none
deriving DecidableEq, Repr

/-- The `CodeGraph` state: the `entities` dict, the `file_to_entities`
dict, and the networkx digraph as node and edge lists. -/
structure CodeGraph where
  entities : List (String × CodeEntity) := []
  fileToEntities : List (String × List String) := []
  nodes : List String := []
  edges : List (String × String × String) := []
deriving DecidableEq, Repr

/-- Dict lookup in `entities` (`self.entities.get(id)`). -/
def CodeGraph.findEntity (g : CodeGraph) (eid : String) : Option CodeEntity :=
  (g.entities.find? (fun p => p.1 = eid)).map (fun p => p.2)

/-- `graph.add_node(id, ...)`: insert the node if new (attributes live
on the entity record). -/
def CodeGraph.addNode (g : CodeGraph) (n : String) : CodeGraph :=
  if n ∈ g.nodes then g else { g with nodes := g.nodes ++ [n] }

/-- `CodeGraph._add_entity(entity)`: store the entity, add its node,
append its id to its file's list. -/
def CodeGraph.addEntity (g : CodeGraph) (e : CodeEntity) : CodeGraph :=
  let g :=
    { g with entities :=
        if (g.entities.find? (fun (p : String × CodeEntity) =>
            p.1 = e.id)).isSome then
          g.entities.map (fun (p : String × CodeEntity) =>
            if p.1 = e.id then (e.id, e) else p)
        else g.entities ++ [(e.id, e)] }
  let g := g.addNode e.id
  { g with fileToEntities :=
      if (g.fileToEntities.find? (fun (p : String × List String) =>
          p.1 = e.file_path)).isSome then
        g.fileToEntities.map (fun (p : String × List String) =>
          if p.1 = e.file_path then (p.1, p.2 ++ [e.id]) else p)
      else g.fileToEntities ++ [(e.file_path, [e.id])] }

/-- `CodeGraph._add_relation(rel)` = `graph.add_edge(src, tgt,
relation=kind)`: add both endpoints as nodes, then insert the edge or
overwrite its relation attribute. -/
def CodeGraph.addRelation (g : CodeGraph) (src tgt kind : String) : CodeGraph :=
  let g := (g.addNode src).addNode tgt
  if (g.edges.find? (fun e => e.1 = src ∧ e.2.1 = tgt)).isSome then
    { g with edges := g.edges.map (fun e =>
        if e.1 = src ∧ e.2.1 = tgt then (src, tgt, kind) else e) }
  else { g with edges := g.edges ++ [(src, tgt, kind)] }

/-- `graph.successors(n)`: targets of outgoing edges. -/
def CodeGraph.successors (g : CodeGraph) (n : String) : List String :=
  (g.edges.filter (fun e => e.1 = n)).map (fun e => e.2.1)

/-- `graph.predecessors(n)`: sources of incoming edges. -/
def CodeGraph.predecessors (g : CodeGraph) (n : String) : List String :=
  (g.edges.filter (fun e => e.2.1 = n)).map (fun e => e.1)

/-- Set union of two id lists, keeping first-seen order: the embedding
of a Python set accumulating `update`s.  No theorem below depends on
Python's unspecified set iteration order, only on the member set. -/
def idUnion (xs ys : List String) : List String :=
  xs ++ ys.filter (fun y => ¬ y ∈ xs)

/-- The `for _ in range(max_hops)` loop of `get_related_entities`:
`current` is `current_level`, `related` the accumulator.  Each round
takes all successors and predecessors of the current level, merges them
into `related`, and continues from `next_level - related` — exactly the
source's order of operations, in which `related` is enlarged first. -/
def CodeGraph.bfsLoop (g : CodeGraph) :
    Nat → List String → List String → List String
  | 0, _, related => related
  | hops + 1, current, related =>
    let nextLevel := (current.map
      (fun n => idUnion (g.successors n) (g.predecessors n))).foldl idUnion []
    let related' := idUnion related nextLevel
    let current' := nextLevel.filter (fun n => ¬ n ∈ related')
    g.bfsLoop hops current' related'

/-- `CodeGraph.get_related_entities(entity_id, max_hops)`: the BFS
above, then the filter to known, non-external entities. -/
def CodeGraph.getRelatedEntities (g : CodeGraph) (entityId : String)
    (maxHops : Nat) : List String :=
  if entityId ∈ g.nodes then
    (g.bfsLoop maxHops [entityId] []).filter
      (fun e => (g.findEntity e).isSome ∧ ¬ strStartsWith e "*:")
  else []

/-- `CodeGraph.get_callers(entity_id)`: sources of incoming `CALLS`
edges. -/
def CodeGraph.getCallers (g : CodeGraph) (eid : String) : List String :=
  (g.edges.filter (fun e => e.2.1 = eid ∧ e.2.2 = "CALLS")).map (fun e => e.1)

/-- `CodeGraph.get_callees(entity_id)`: targets of outgoing `CALLS`
edges. -/
def CodeGraph.getCallees (g : CodeGraph) (eid : String) : List String :=
  (g.edges.filter (fun e => e.1 = eid ∧ e.2.2 = "CALLS")).map (fun e => e.2.1)

/-- `name.split(':')[-1]`, used to print short entity names. -/
def lastColonPart (s : String) : String :=
  String.mk ((splitOnChar ':' s.toList).getLastD [])

/-- `CodeGraph.get_entity_context(entity_id)`: the formatted summary
string (empty for unknown ids).  Python truthiness of the optional
`signature`/`docstring` strings makes `Some ""` falsy. -/
def CodeGraph.getEntityContext (g : CodeGraph) (eid : String) : String :=
  match g.findEntity eid with
  | none => ""
  | some entity =>
    let lines := ["[" ++ entity.entity_type ++ "] " ++ entity.name,
      "File: " ++ entity.file_path ++ ":" ++ intToStr entity.line_start ++
        "-" ++ intToStr entity.line_end]
    let lines := lines ++
      (match entity.signature with
       | some sig => if sig ≠ "" then ["Signature: " ++ sig] else []
       | none => [])
    let lines := lines ++
      (match entity.docstring with
       | some doc => if doc ≠ "" then
           ["Docstring: " ++ String.mk (doc.toList.take 200) ++ "..."] else []
       | none => [])
    let callers := g.getCallers eid
    let lines := lines ++
      (if callers ≠ [] then
        ["Called by: " ++ joinWith ", "
          ((callers.take 5).map lastColonPart)] else [])
    let callees := g.getCallees eid
    let lines := lines ++
      (if callees ≠ [] then
        ["Calls: " ++ joinWith ", "
          ((callees.take 5).map lastColonPart)] else [])
    joinWith "\n" lines

/-! ## Graph-enhanced retriever (`codexrag/graph/graph_retriever.py`)

The wrapped base retriever is an abstract function with the signature
of `HybridRetriever.retrieve`.  Chunk metadata is assumed well-typed
(integer line numbers, string paths), as the indexer produces it; the
Python code would raise on a string-to-int comparison otherwise. -/

/-- `GraphEnhancedRetriever._chunk_to_entities(chunk)`: entities of the
chunk's file whose line span intersects the chunk's line range
(`start_line` defaults to 0, `end_line` to positive infinity). -/
def chunkToEntities (g : CodeGraph) (ch : Chunk) : List String :=
  match ch.meta.get "path" with
  | some (.s p) =>
    if p = "" then []
    else
      let fileEntities :=
        ((g.fileToEntities.find? (fun q => q.1 = p)).map (fun q => q.2)).getD []
      let chunkStart : Int :=
        match ch.meta.get "start_line" with | some (.i n) => n | _ => 0
      let chunkEnd : Option Int :=
        match ch.meta.get "end_line" with | some (.i n) => some n | _ => none
      fileEntities.filter (fun eid =>
        match g.findEntity eid with
        | some e =>
          (match chunkEnd with
           | some ce => decide (e.line_start ≤ ce)
           | none => true) && decide (chunkStart ≤ e.line_end)
        | none => false)
  | _ => []

/-- The synthetic hit built inside `_expand_with_graph` for one related
entity: chunk id `graph:<related>`, the entity-context text, the
graph-expansion metadata, and 80% of the seed hit's score. -/
def expansionHit (hit : RetrievalHit) (seedEntityId relatedId : String)
    (context : String) (entity : CodeEntity) : RetrievalHit :=
  ⟨hit.score * 0.8,
    ⟨"graph:" ++ relatedId, context,
      [("type", .s "graph_expansion"), ("path", .s entity.file_path),
        ("start_line", .i entity.line_start), ("end_line", .i entity.line_end),
        ("entity_type", .s entity.entity_type),
        ("source_entity", .s seedEntityId)]⟩⟩

/-- The `for related_id in related[:max_expanded]` loop of
`_expand_with_graph`, threading `seen_entity_ids` and returning the
synthesized hits in order. -/
def expandRelatedLoop (g : CodeGraph) (hit : RetrievalHit) (seedId : String) :
    List String → List String → List RetrievalHit × List String
  | [], seen => ([], seen)
  | rid :: rest, seen =>
    if rid ∈ seen then expandRelatedLoop g hit seedId rest seen
    else
      let seen' := seen ++ [rid]
      let context := g.getEntityContext rid
      if context ≠ "" then
        match g.findEntity rid with
        | some entity =>
          let step := expandRelatedLoop g hit seedId rest seen'
          (expansionHit hit seedId rid context entity :: step.1, step.2)
        | none => expandRelatedLoop g hit seedId rest seen'
      else expandRelatedLoop g hit seedId rest seen'

/-- The `for entity_id in entity_ids` loop of `_expand_with_graph`:
skip seen seeds, traverse the graph, expand the first `max_expanded`
related entities. -/
def expandEntityIdsLoop (g : CodeGraph) (maxHops maxExpanded : Nat)
    (hit : RetrievalHit) :
    List String → List String → List RetrievalHit × List String
  | [], seen => ([], seen)
  | eid :: rest, seen =>
    if eid ∈ seen then expandEntityIdsLoop g maxHops maxExpanded hit rest seen
    else
      let seen' := seen ++ [eid]
      let related := g.getRelatedEntities eid maxHops
      let step1 := expandRelatedLoop g hit eid (related.take maxExpanded) seen'
      let step2 := expandEntityIdsLoop g maxHops maxExpanded hit rest step1.2
      (step1.1 ++ step2.1, step2.2)

/-- The outer `for hit in base_hits` loop of `_expand_with_graph`. -/
def expandHitsLoop (g : CodeGraph) (maxHops maxExpanded : Nat) :
    List RetrievalHit → List String → List RetrievalHit × List String
  | [], seen => ([], seen)
  | hit :: rest, seen =>
    let step1 :=
      expandEntityIdsLoop g maxHops maxExpanded hit (chunkToEntities g hit.chunk) seen
    let step2 := expandHitsLoop g maxHops maxExpanded rest step1.2
    (step1.1 ++ step2.1, step2.2)

/-- `GraphEnhancedRetriever._expand_with_graph(query, base_hits)` (the
query argument is unused by the source). -/
def expandWithGraph (g : CodeGraph) (maxHops maxExpanded : Nat)
    (baseHits : List RetrievalHit) : List RetrievalHit :=
  (expandHitsLoop g maxHops maxExpanded baseHits []).1

/-- The shared merge loop: append the hits of the second list whose
chunk id has not been seen.  With `seen` initialized to the first
list's ids this is `Orchestrator._merge_hits` and the merge phase of
`GraphEnhancedRetriever._merge_hits`. -/
def mergeKeepFirstLoop (seen : List String) :
    List RetrievalHit → List RetrievalHit
  | [] => []
  | h :: rest =>
    if h.chunk.chunk_id ∈ seen then mergeKeepFirstLoop seen rest
    else h :: mergeKeepFirstLoop (seen ++ [h.chunk.chunk_id]) rest

/-- `Orchestrator._merge_hits(hits1, hits2)`: concatenate, first
occurrence of each chunk id wins. -/
def mergeKeepFirst (hits1 hits2 : List RetrievalHit) : List RetrievalHit :=
  hits1 ++ mergeKeepFirstLoop (hits1.map (fun h => h.chunk.chunk_id)) hits2

/-- `GraphEnhancedRetriever._merge_hits(base_hits, expanded_hits)`:
id-dedup with base priority, then Python's stable
`sort(key=score, reverse=True)` (see `scoreGe`). -/
def graphMergeHits (baseHits expandedHits : List RetrievalHit) :
    List RetrievalHit :=
  List.insertionSort scoreGe (mergeKeepFirst baseHits expandedHits)

/-- `GraphEnhancedRetriever`: the wrapped retriever, the optional graph
handle, and the two expansion bounds. -/
structure GraphEnhancedRetriever where
  base : String → Nat → Nat → Nat → List RetrievalHit
  graph : Option CodeGraph
  maxHops : Nat := 2
  maxExpanded : Nat := 4

/-- `GraphEnhancedRetriever.retrieve(query, top_k_bm25, top_k_vector,
top_k_rerank)`: base retrieval, then — when a graph is attached and
there are hits — expansion, merge, sort, truncation. -/
def GraphEnhancedRetriever.retrieve (r : GraphEnhancedRetriever)
    (query : String) (topKBm25 topKVector topKRerank : Nat) :
    List RetrievalHit :=
  let baseHits := r.base query topKBm25 topKVector topKRerank
  match r.graph with
  | none => baseHits
  | some g =>
    if baseHits = [] then baseHits
    else
      (graphMergeHits baseHits
        (expandWithGraph g r.maxHops r.maxExpanded baseHits)).take topKRerank

/-! ## Orchestrator (`codexrag/agents/orchestrator.py`)

The language-model client is an abstract function from the prompt to
the response text: `_invoke_llm` wraps exactly one model invocation
around error handling whose failure text is just another response, so
one application of the function models one call.  The retriever is the
abstract retrieve signature.  The optional safety agent only appends to
an audit log and is not modelled.  `Orchestrator.query` is returned
together with the number of retriever and language-model calls it
performed and whether the refined regeneration pass ran; these counters
instrument the control flow without changing it. -/

/-- `query.lower()` (ASCII, as in every string the code matches on). -/
def lowerStr (s : String) : String :=
  String.mk (s.toList.map Char.toLower)

/-- Python's `pat in hay` substring test. -/
def containsSub (hay pat : String) : Bool :=
  decide (pat.toList <:+: hay.toList)

/-- `QueryIntent` from `codexrag/agents/orchestrator.py`. -/
inductive QueryIntent where
  | code | data | docs | math | general
deriving DecidableEq, Repr

/-- `IntentClassifier.INTENT_KEYWORDS` (no entry for `GENERAL`). -/
def intentKeywords : QueryIntent → List String
  | .code =>
    ["function", "class", "method", "import", "variable", "loop",
     "def ", "return", "parameter", "argument", "compute", "calculate",
     "where is", "how does", "implementation", "algorithm", "called"]
  | .data =>
    ["csv", "hdf5", "output", "data", "file", "plot", "figure",
     "results", "table", "column", "row", "values", "generate", "json",
     "yaml"]
  | .docs =>
    ["documentation", "readme", "paper", "reference", "explain",
     "tutorial", "guide", "help", "what is", "describe", "meaning"]
  | .math =>
    ["formula", "equation", "integral", "derivative", "physics",
     "latex", "math", "units", "dimension", "theory", "model", "term",
     "sum"]
  | .general => []

/-- One intent's keyword-hit count against the lowercased query. -/
def intentScore (queryLower : String) (i : QueryIntent) : Nat :=
  ((intentKeywords i).filter (fun k => containsSub queryLower k)).length

/-- `IntentClassifier.classify(query)`: highest keyword count wins,
ties broken Code > Math > Data > Docs, zero everywhere is General. -/
def classifyIntent (query : String) : QueryIntent :=
  let ql := lowerStr query
  let maxScore := ([QueryIntent.code, .data, .docs, .math,
    .general].map (intentScore ql)).foldl max 0
  if maxScore = 0 then .general
  else if intentScore ql .code = maxScore then .code
  else if intentScore ql .math = maxScore then .math
  else if intentScore ql .data = maxScore then .data
  else if intentScore ql .docs = maxScore then .docs
  else .general

/-- `intent.value.upper()`. -/
def intentUpper : QueryIntent → String
  | .code => "CODE" | .data => "DATA" | .docs => "DOCS"
  | .math => "MATH" | .general => "GENERAL"

/-- `intent.value.title()`. -/
def intentTitle : QueryIntent → String
  | .code => "Code" | .data => "Data" | .docs => "Docs"
  | .math => "Math" | .general => "General"

/-- `Orchestrator._get_specialist_config(intent)[0]`: the role name. -/
def specialistRole : QueryIntent → String
  | .code => "Code Analyst"
  | .data => "Data Expert"
  | .docs => "Documentation Expert"
  | .math => "Physics/Math Expert"
  | .general => "General Assistant"

/-- How Python renders a metadata value inside an f-string. -/
def metaValPyStr : MetaVal → String
  | .s v => v
  | .i n => intToStr n

/-- Python truthiness of an optional metadata value (`if sl and el`). -/
def metaTruthy : Option MetaVal → Bool
  | none => false
  | some (.s v) => v ≠ ""
  | some (.i n) => n ≠ 0

/-- The citation line built for one hit inside
`Orchestrator._format_context`. -/
def citeFor (m : Meta) : String :=
  let path := match m.get "path" with
    | some v => metaValPyStr v
    | none => "unknown"
  if m.get "type" = some (.s "pdf") then
    path ++ " (Page " ++
      (match m.get "page" with
       | some v => metaValPyStr v
       | none => "?") ++ ")"
  else
    let sl := m.get "start_line"
    let el := m.get "end_line"
    if metaTruthy sl ∧ metaTruthy el then
      path ++ ":" ++ metaValPyStr ((sl.getD (.s ""))) ++ "-" ++
        metaValPyStr ((el.getD (.s "")))
    else path

/-- `Orchestrator._format_context(hits, max_chunks)`: numbered source
blocks joined by a separator. -/
def formatContext (hits : List RetrievalHit) (maxChunks : Nat) : String :=
  joinWith "\n\n---\n\n"
    (((List.range (hits.take maxChunks).length).zip (hits.take maxChunks)).map
      (fun p =>
        "Source [" ++ natToStr (p.1 + 1) ++ "]: " ++ citeFor p.2.chunk.meta ++
          "\n" ++ p.2.chunk.text))

/-- `ORCHESTRATOR_PROMPT.format(query=..., context=...)`. -/
def orchestratorPrompt (query context : String) : String :=
  "You are the Orchestrator Agent for CodeXRAG, a scientific codebase assistant.\n\nYour job is to:\n1. Understand the user\x27s question about the codebase: \"" ++
  query ++
  "\"\n2. Review the retrieved context chunks below.\n3. Synthesize a comprehensive answer.\n\nYou are helping analyze a physics/scientific codebase.\n- Be precise and conservative.\n- Cite your sources using the [ID] or file path provided in context.\n- If the context doesn\x27t contain the answer, say \"I cannot find this information in the current index.\"\n\nCurrent codebase context:\n" ++
  context ++ "\n\nAnswer:"

/-- `SPECIALIST_PROMPT_TEMPLATE.format(role=..., specialty=..., query=...,
context=...)`; the template has no `specialty` placeholder, so that
argument is dropped, as in the source. -/
def specialistPrompt (role query context : String) : String :=
  "You are the CodeXRAG " ++ role ++
  ".\n\nYour goal is to answer the user\x27s question using ONLY the provided context snippets.\nIf the answer is not in the context, say \"I cannot find this information in the files I have access to.\"\n\nUser Question: \"" ++
  query ++
  "\"\n\nRetrieved Context from Codebase:\n" ++
  context ++
  "\n\nInstructions:\n1. Answer the question directly.\n2. Cite the specific file and line numbers (e.g. `[Source 1] path/to/file.py:10-20`).\n3. Explain the code/data logic if relevant.\n4. Do NOT use outside knowledge. Use ONLY the context above.\n\nAnswer:"

/-- The refusal phrases of `_estimate_confidence`. -/
def refusalPatterns : List String :=
  ["cannot find", "don\x27t have", "not in the context",
   "no information", "unable to", "not enough"]

/-- After the first digit of `\d+\]`: more digits, then `]`. -/
def digitsCloseBracket : List Char → Bool
  | [] => false
  | c :: rest => if c = ']' then true else c.isDigit && digitsCloseBracket rest

/-- `\d+\]`: at least one digit, then `]`. -/
def digitsThenBracket : List Char → Bool
  | [] => false
  | c :: rest => c.isDigit && digitsCloseBracket rest

/-- `.*\.py` after the opening bracket: reach a literal `.py` without
crossing a newline (`.` does not match `\n`). -/
def seekDotPy : List Char → Bool
  | [] => false
  | c :: rest =>
    if (".py".toList).isPrefixOf (c :: rest) then true
    else if c = '\n' then false
    else seekDotPy rest

/-- Whether the regex `\[Source \d+\]|\[.*\.py` matches at this exact
position. -/
def citationMatchHere (l : List Char) : Bool :=
  (("[Source ".toList).isPrefixOf l && digitsThenBracket (l.drop 8)) ||
  (match l with
   | '[' :: rest => seekDotPy rest
   | _ => false)

/-- The scan of `re.search`: try to match at every position. -/
def citationSearch : List Char → Bool
  | [] => false
  | c :: rest => citationMatchHere (c :: rest) || citationSearch rest

/-- `re.search(r'\[Source \d+\]|\[.*\.py', response)`: a match at some
position. -/
def hasCitations (response : String) : Bool :=
  citationSearch response.toList

/-- `re.findall(r'\b\w+\b', s)` as a set: the maximal word-character
runs. -/
def wordSet (s : String) : Finset String :=
  ((wordRuns s.toList).map String.mk).toFinset

/-- The stop words removed from the question terms. -/
def stopWords : List String :=
  ["the", "a", "an", "is", "are", "was", "how", "what", "where", "when"]

/-- `Orchestrator._estimate_confidence(response, context, question)`
(the context argument is unused by the source): hard floor `0.3` on a
refusal phrase, `0.3` citation bonus, term-overlap fraction weighted
`0.7`, clamped at `1`. -/
def estimateConfidence (response context question : String) : Rat :=
  let responseLower := lowerStr response
  if refusalPatterns.any (fun p => containsSub responseLower p) then 3/10
  else
    let citationScore : Rat := if hasCitations response then 3/10 else 0
    let questionTerms := wordSet (lowerStr question) \ stopWords.toFinset
    let responseTerms := wordSet responseLower
    let overlap : Rat :=
      if questionTerms ≠ ∅ then
        ((questionTerms ∩ responseTerms).card : Rat) /
          (questionTerms.card : Rat)
      else 1/2
    min 1 (citationScore + overlap * (7/10))

/-- The camel-case alternative `[A-Z][a-z]+[A-Z]\w+` of
`_refine_query`, applied to one maximal word run (the leading `\b`
puts every match at a run start and the trailing greedy `\w+` plus
`\b` makes it consume the whole run). -/
def camelToken (r : List Char) : Bool :=
  match r with
  | c :: rest =>
    c.isUpper &&
      (let ls := rest.takeWhile Char.isLower
       decide (ls ≠ []) &&
        (match rest.drop ls.length with
         | d :: ws => d.isUpper && decide (ws ≠ [])
         | [] => false))
  | [] => false

/-- The snake-case alternative `[a-z_]+_[a-z_]+` of `_refine_query` on
one maximal word run: only lowercase letters and underscores, with an
underscore somewhere strictly inside. -/
def snakeToken (r : List Char) : Bool :=
  r.all (fun c => c.isLower || c = '_') &&
  ((r.drop 1).dropLast.any (fun c => c = '_'))

/-- `Orchestrator._refine_query(original_query, current_response)`:
append the first identifier-like token found in the response, else
return the query unchanged. -/
def refineQuery (originalQuery currentResponse : String) : String :=
  let tokens := (wordRuns currentResponse.toList).filter
    (fun r => camelToken r || snakeToken r)
  match tokens with
  | t :: _ => originalQuery ++ " " ++ String.mk t
  | [] => originalQuery

/-- Round half to even, as Python's `format(x, '.0%')` rounds the
percentage (exact on the rationals used here). -/
def roundHalfEven (x : Rat) : Int :=
  let f := ⌊x⌋
  let r := x - f
  if r < 1/2 then f
  else if 1/2 < r then f + 1
  else if f % 2 = 0 then f else f + 1

/-- `f" (Confidence: {confidence:.0%})" if confidence else ""` — the
truthiness test drops the badge for `None` and for a zero
confidence. -/
def confidenceBadge : Option Rat → String
  | none => ""
  | some c =>
    if c ≠ 0 then
      " (Confidence: " ++ intToStr (roundHalfEven (c * 100)) ++ "%)"
    else ""

/-- The final output f-string of `Orchestrator.query`. -/
def finalOutput (intent : QueryIntent) (confidence : Option Rat)
    (response : String) : String :=
  "\n### 🧠 Query Analysis\n**Intent Detected**: `" ++ intentUpper intent ++
  "`\n**Active Agent**: " ++ specialistRole intent ++
  confidenceBadge confidence ++ "\n\n---\n\n" ++ response ++ "\n"

/-- The early return of `Orchestrator.query` when retrieval finds
nothing. -/
def noResultsOutput (intent : QueryIntent) : String :=
  "### " ++ intentTitle intent ++
  " Analysis\n\nI could not find any relevant documents in the index matching your query."

/-- The first-pass prompt construction of `Orchestrator.query` (step
3 of the source): the orchestrator template for the general intent, the
specialist template for every classified intent. -/
def firstPassPrompt (question context : String) : String :=
  match classifyIntent question with
  | .general => orchestratorPrompt question context
  | i => specialistPrompt (specialistRole i) question context

/-- The orchestrator's collaborators: the language model and the
retriever (see the section comment). -/
structure Orchestrator where
  llm : String → String
  retriever : String → Nat → Nat → Nat → List RetrievalHit

/-- What one `Orchestrator.query` run produced and did: the returned
string, how many retriever calls and language-model calls it made, and
whether the refined regeneration pass (second prompt and second model
call) ran. -/
structure OrchestratorResult where
  output : String
  retrieveCalls : Nat
  llmCalls : Nat
  refinedPass : Bool
deriving Repr

/-- `Orchestrator.query(question, top_k_bm25, top_k_vector,
top_k_rerank, max_context_chunks, enable_self_correction)`: classify,
retrieve, generate, and — when self-correction is enabled, confidence
is below `0.5`, and the refined retrieval is non-empty — merge and
regenerate once. -/
def Orchestrator.query (o : Orchestrator) (question : String)
    (topKBm25 topKVector topKRerank maxContextChunks : Nat)
    (enableSelfCorrection : Bool) : OrchestratorResult :=
  let intent := classifyIntent question
  let hits := o.retriever question topKBm25 topKVector topKRerank
  if hits = [] then
    ⟨noResultsOutput intent, 1, 0, false⟩
  else
    let context := formatContext hits maxContextChunks
    let prompt := firstPassPrompt question context
    let response := o.llm prompt
    if enableSelfCorrection then
      let confidence := estimateConfidence response context question
      if confidence < 1/2 then
        let refinedQuery := refineQuery question response
        let hits2 := o.retriever refinedQuery topKBm25 topKVector topKRerank
        if hits2 ≠ [] then
          let allHits := mergeKeepFirst hits hits2
          let context2 := formatContext allHits maxContextChunks
          let prompt2 := specialistPrompt "Senior Analyst" question context2
          let response2 := o.llm prompt2
          let confidence2 := estimateConfidence response2 context2 question
          ⟨finalOutput intent (some confidence2) response2, 2, 2, true⟩
        else ⟨finalOutput intent (some confidence) response, 2, 1, false⟩
      else ⟨finalOutput intent (some confidence) response, 1, 1, false⟩
    else ⟨finalOutput intent none response, 1, 1, false⟩

/-! ## Concrete instances used to exercise the theorems -/

/-- A one-chunk index: `a.py` lines 1–2. -/
def sampleChunk : Chunk :=
  ⟨"c0", "hello", [("path", .s "a.py"), ("start_line", .i 1),
    ("end_line", .i 2)]⟩

/-- A store with both a lexical corpus and a vector index over the one
chunk. -/
def fullStore : IndexStore :=
  ⟨[sampleChunk], some ⟨[["hello"]], fun _ => 1⟩,
    some (fun _ _ => [((0 : Int), (1/2 : Rat))])⟩

/-- A store holding one chunk with a lexical corpus but no vector
index: the state `IndexStore.load` produces when only `chunks.jsonl`
and `bm25.json` exist on disk. -/
def lexOnlyStore : IndexStore :=
  ⟨[sampleChunk], some ⟨[["hello"]], fun _ => 1⟩, none⟩

/-- The empty store: nothing indexed. -/
def emptyStore : IndexStore := ⟨[], none, none⟩

/-- The spec scenario graph: functions `foo`, `bar`, `baz` in `f.py`,
where `foo` calls `bar` and `bar` calls `baz`, and no other
relations. -/
def fooBarBazGraph : CodeGraph :=
  let g : CodeGraph := {}
  let g := g.addEntity ⟨"f.py:foo", "foo", "FUNCTION", "f.py", 1, 2, none, none⟩
  let g := g.addEntity ⟨"f.py:bar", "bar", "FUNCTION", "f.py", 3, 4, none, none⟩
  let g := g.addEntity ⟨"f.py:baz", "baz", "FUNCTION", "f.py", 5, 6, none, none⟩
  let g := g.addRelation "f.py:foo" "f.py:bar" "CALLS"
  g.addRelation "f.py:bar" "f.py:baz" "CALLS"

/-- A base hit over `f.py` lines 1–2 (the span of `foo`) with a chosen
score. -/
def baseHitAt (s : Rat) : RetrievalHit :=
  ⟨s, ⟨"h0", "seed text", [("path", .s "f.py"), ("start_line", .i 1),
    ("end_line", .i 2)]⟩⟩

/-- The expansion hit that `_expand_with_graph` synthesizes for `bar`
from the seed hit above. -/
def sampleExpansion (s : Rat) : RetrievalHit :=
  expansionHit (baseHitAt s) "f.py:foo" "f.py:bar"
    (fooBarBazGraph.getEntityContext "f.py:bar")
    ⟨"f.py:bar", "bar", "FUNCTION", "f.py", 3, 4, none, none⟩

/-- An orchestrator whose model always answers with a refusal and
whose retriever returns the same single hit for every query. -/
def sampleOrchestrator : Orchestrator :=
  ⟨fun _ => "I cannot find this information in the files I have access to.",
    fun _ _ _ _ => [baseHitAt 1]⟩

/-! # Theorems -/

/-! ## Pass-through and call bounds -/

/-- C7: For every query and every choice of top_k parameters,
`GraphEnhancedRetriever.retrieve` with no graph attached returns
exactly the same ordered sequence of hits as the wrapped base retriever
returns for the same inputs. -/
theorem graph_retriever_passthrough (r : GraphEnhancedRetriever)
    (h : r.graph = none) (query : String) (topKBm25 topKVector topKRerank : Nat) :
    r.retrieve query topKBm25 topKVector topKRerank =
      r.base query topKBm25 topKVector topKRerank := by
  unfold GraphEnhancedRetriever.retrieve
  rw [h]

/-- Witness for C7: a graph-less wrapper around a concrete base
retriever returns the base hits unchanged. -/
theorem graph_retriever_passthrough_witness :
    (GraphEnhancedRetriever.mk (fun _ _ _ _ => [baseHitAt 1]) none 2 4).retrieve
      "q" 1 2 3 = [baseHitAt 1] :=
  graph_retriever_passthrough
    (GraphEnhancedRetriever.mk (fun _ _ _ _ => [baseHitAt 1]) none 2 4)
    rfl "q" 1 2 3

/-- C8: For every question, `Orchestrator.query` invokes the retriever
at most twice and the language model at most twice, regardless of the
confidence values computed — the refinement branch is never taken more
than once per query. -/
theorem orchestrator_call_bound (o : Orchestrator) (question : String)
    (topKBm25 topKVector topKRerank maxContextChunks : Nat)
    (enableSelfCorrection : Bool) :
    (o.query question topKBm25 topKVector topKRerank maxContextChunks
        enableSelfCorrection).retrieveCalls ≤ 2 ∧
    (o.query question topKBm25 topKVector topKRerank maxContextChunks
        enableSelfCorrection).llmCalls ≤ 2 := by
  unfold Orchestrator.query
  dsimp only
  repeat' split
  all_goals simp

/-! ## Confidence estimation (C9) -/

/-- The lowercased text of a string, at the character-list level. -/
theorem lowerStr_toList (s : String) :
    (lowerStr s).toList = s.toList.map Char.toLower := rfl

/-- If the admission phrase occurs in the response, the lowercased
response contains the pattern `"cannot find"`, so the refusal branch of
`_estimate_confidence` fires. -/
theorem refusal_fires (response : String)
    (h : "cannot find this information".toList <:+: response.toList) :
    containsSub (lowerStr response) "cannot find" = true := by
  have hmap := List.IsInfix.map Char.toLower h
  have hsub : "cannot find".toList <:+:
      ("cannot find this information".toList.map Char.toLower) := by decide
  have : "cannot find".toList <:+: (lowerStr response).toList := by
    rw [lowerStr_toList]
    exact hsub.trans hmap
  exact decide_eq_true this

/-- C9: For every response, context, and question, the confidence
estimate lies in [0, 1]; and whenever the response text contains the
admission-of-ignorance phrase "cannot find this information", the
confidence is at most the hard floor 0.3, regardless of term overlap or
citation presence. -/
theorem confidence_bounds (response context question : String) :
    0 ≤ estimateConfidence response context question ∧
    estimateConfidence response context question ≤ 1 ∧
    ("cannot find this information".toList <:+: response.toList →
      estimateConfidence response context question ≤ 3/10) := by
  unfold estimateConfidence
  dsimp only
  split
  · refine ⟨by norm_num, by norm_num, fun _ => le_refl _⟩
  · next href =>
    set citationScore : Rat := if hasCitations response then 3/10 else 0 with hcs
    set questionTerms :=
      wordSet (lowerStr question) \ stopWords.toFinset with hqt
    set overlap : Rat :=
      if questionTerms ≠ ∅ then
        ((questionTerms ∩ wordSet (lowerStr response)).card : Rat) /
          (questionTerms.card : Rat)
      else 1/2 with hov
    have hcs0 : 0 ≤ citationScore := by
      rw [hcs]; split <;> norm_num
    have hov0 : 0 ≤ overlap := by
      rw [hov]; split
      · exact div_nonneg (by positivity) (by positivity)
      · norm_num
    refine ⟨?_, min_le_left _ _, ?_⟩
    · exact le_min (by norm_num) (by positivity)
    · intro h
      exact absurd (List.any_eq_true.mpr
        ⟨"cannot find", by simp [refusalPatterns], refusal_fires response h⟩)
        href

/-- Witness for C9: on a concrete refusal answer the estimate is at
most 0.3, and it is nonnegative. -/
theorem confidence_bounds_witness :
    estimateConfidence "I cannot find this information in the index." ""
      "what is foo" ≤ 3/10 ∧
    0 ≤ estimateConfidence "I cannot find this information in the index." ""
      "what is foo" :=
  ⟨(confidence_bounds "I cannot find this information in the index." ""
      "what is foo").2.2 (by decide),
    (confidence_bounds "I cannot find this information in the index." ""
      "what is foo").1⟩

/-! ## Chunk splitting (C10) -/

/-- Every window the split loop cuts has at most `maxChars`
characters. -/
theorem strSlice_length_le (text : String) (start stop : Nat) :
    (strSlice text start stop).length ≤ stop - start := by
  unfold strSlice
  show ((text.toList.drop start).take (stop - start)).length ≤ stop - start
  rw [List.length_take]
  exact min_le_left _ _

/-- With an overlap smaller than the window, the split loop terminates
(within `len - start < fuel` fuel) and every chunk it appends is at
most `maxChars` long. -/
theorem splitChunkLoop_some (hash : String → String) (ch : Chunk)
    (maxChars overlapChars : Nat) (hov : overlapChars < maxChars) :
    ∀ fuel start part acc, ch.text.length - start < fuel →
      ∃ out, splitChunkLoop hash ch maxChars overlapChars fuel start part acc
          = some out ∧
        ∀ c ∈ out, c.text.length ≤ maxChars ∨ c ∈ acc := by
  intro fuel
  induction fuel with
  | zero => intro start part acc h; omega
  | succ fuel ih =>
    intro start part acc h
    rw [splitChunkLoop]
    by_cases hs : start < ch.text.length
    · rw [if_pos hs]
      have hpiece : (strSlice ch.text start
          (min ch.text.length (start + maxChars))).length ≤ maxChars := by
        have := strSlice_length_le ch.text start
          (min ch.text.length (start + maxChars))
        omega
      by_cases hstop : min ch.text.length (start + maxChars) = ch.text.length
      · rw [if_pos hstop]
        refine ⟨_, rfl, fun c hc => ?_⟩
        rcases List.mem_append.mp hc with hc | hc
        · exact Or.inr hc
        · rw [List.mem_singleton] at hc
          subst hc
          exact Or.inl hpiece
      · rw [if_neg hstop]
        have hlt : ch.text.length -
            (min ch.text.length (start + maxChars) - overlapChars) < fuel := by
          omega
        obtain ⟨out, hout, hprop⟩ := ih
          (min ch.text.length (start + maxChars) - overlapChars) (part + 1) _ hlt
        refine ⟨out, hout, fun c hc => ?_⟩
        rcases hprop c hc with hshort | hacc
        · exact Or.inl hshort
        · rcases List.mem_append.mp hacc with hc' | hc'
          · exact Or.inr hc'
          · rw [List.mem_singleton] at hc'
            subst hc'
            exact Or.inl hpiece
    · rw [if_neg hs]
      exact ⟨acc, rfl, fun c hc => Or.inr hc⟩

/-- With `overlap_chars >= max_chars` and an oversized chunk, the next
window start recomputes to 0 forever: the loop consumes any amount of
fuel without producing a result (the Python loop never exits). -/
theorem splitChunkLoop_none (hash : String → String) (ch : Chunk)
    (maxChars overlapChars : Nat) (hov : maxChars ≤ overlapChars)
    (hlen : maxChars < ch.text.length) :
    ∀ fuel part acc,
      splitChunkLoop hash ch maxChars overlapChars fuel 0 part acc = none := by
  intro fuel
  induction fuel with
  | zero => intro part acc; rfl
  | succ fuel ih =>
    intro part acc
    rw [splitChunkLoop]
    have hs : 0 < ch.text.length := by omega
    rw [if_pos hs]
    have hmin : min ch.text.length (0 + maxChars) = maxChars := by omega
    have hstop : ¬ min ch.text.length (0 + maxChars) = ch.text.length := by omega
    rw [if_neg hstop, hmin]
    have hzero : maxChars - overlapChars = 0 := by omega
    rw [hzero]
    exact ih _ _

/-- Terminating half of C10, over whole chunk lists, with a fuel bound
per oversized chunk. -/
theorem splitLongChunks_some (hash : String → String)
    (maxChars overlapChars : Nat) (hov : overlapChars < maxChars) :
    ∀ (chunks : List Chunk) (fuel : Nat),
      (∀ c ∈ chunks, c.text.length < fuel) →
      ∃ out, splitLongChunks hash chunks maxChars overlapChars fuel
          = some out ∧
        (∀ c ∈ out, c.text.length ≤ maxChars) ∧
        (∀ c ∈ chunks, c.text.length ≤ maxChars → c ∈ out) := by
  intro chunks
  induction chunks with
  | nil =>
    intro fuel _
    exact ⟨[], rfl, fun c hc => absurd hc (List.not_mem_nil c),
      fun c hc => absurd hc (List.not_mem_nil c)⟩
  | cons ch rest ih =>
    intro fuel hfuel
    obtain ⟨out', hout', hlen', hmem'⟩ :=
      ih fuel (fun c hc => hfuel c (List.mem_cons_of_mem ch hc))
    rw [splitLongChunks]
    by_cases hshort : ch.text.length ≤ maxChars
    · rw [if_pos hshort, hout']
      refine ⟨ch :: out', rfl, fun c hc => ?_, fun c hc hcl => ?_⟩
      · rcases List.mem_cons.mp hc with hc | hc
        · subst hc; exact hshort
        · exact hlen' c hc
      · rcases List.mem_cons.mp hc with hc | hc
        · subst hc; exact List.mem_cons_self _ _
        · exact List.mem_cons_of_mem ch (hmem' c hc hcl)
    · rw [if_neg hshort]
      obtain ⟨pieces, hpieces, hprop⟩ :=
        splitChunkLoop_some hash ch maxChars overlapChars hov fuel 0 0 []
          (by have := hfuel ch (List.mem_cons_self ch rest); omega)
      rw [hpieces, hout']
      refine ⟨pieces ++ out', rfl, fun c hc => ?_, fun c hc hcl => ?_⟩
      · rcases List.mem_append.mp hc with hc | hc
        · rcases hprop c hc with h | h
          · exact h
          · exact absurd h (List.not_mem_nil c)
        · exact hlen' c hc
      · rcases List.mem_cons.mp hc with hc | hc
        · subst hc; exact absurd hcl hshort
        · exact List.mem_append_right pieces (hmem' c hc hcl)

/-- Diverging half of C10 over whole chunk lists. -/
theorem splitLongChunks_none (hash : String → String)
    (maxChars overlapChars : Nat) (hov : maxChars ≤ overlapChars) :
    ∀ (chunks : List Chunk), (∃ c ∈ chunks, maxChars < c.text.length) →
      ∀ fuel, splitLongChunks hash chunks maxChars overlapChars fuel = none := by
  intro chunks
  induction chunks with
  | nil => rintro ⟨c, hc, _⟩; exact absurd hc (List.not_mem_nil c)
  | cons ch rest ih =>
    rintro ⟨c, hc, hcl⟩ fuel
    rw [splitLongChunks]
    by_cases hshort : ch.text.length ≤ maxChars
    · rw [if_pos hshort]
      have hc' : c ∈ rest := by
        rcases List.mem_cons.mp hc with hc | hc
        · subst hc; omega
        · exact hc
      rw [ih ⟨c, hc', hcl⟩ fuel]
      rfl
    · rw [if_neg hshort]
      rw [splitChunkLoop_none hash ch maxChars overlapChars hov (by omega) fuel 0 []]

/-- C10: whenever `0 ≤ overlap_chars < max_chars`, `split_long_chunks`
terminates, every output chunk is at most `max_chars` long, and every
already-short input chunk passes through unchanged (same id, text and
metadata — it is the same record); and whenever
`overlap_chars ≥ max_chars` and some chunk is longer than `max_chars`,
the function does not terminate (no amount of fuel yields a result). -/
theorem split_long_chunks_spec (hash : String → String)
    (chunks : List Chunk) (maxChars overlapChars : Nat) :
    (overlapChars < maxChars →
      ∃ fuel out,
        splitLongChunks hash chunks maxChars overlapChars fuel = some out ∧
        (∀ c ∈ out, c.text.length ≤ maxChars) ∧
        (∀ c ∈ chunks, c.text.length ≤ maxChars → c ∈ out)) ∧
    (maxChars ≤ overlapChars → (∃ c ∈ chunks, maxChars < c.text.length) →
      ∀ fuel, splitLongChunks hash chunks maxChars overlapChars fuel = none) := by
  constructor
  · intro hov
    refine ⟨(chunks.map (fun c => c.text.length)).sum + 1,
      splitLongChunks_some hash maxChars overlapChars hov chunks _
        (fun c hc => ?_)⟩
    have : c.text.length ≤ (chunks.map (fun c => c.text.length)).sum :=
      List.single_le_sum (fun x _ => Nat.zero_le x) _
        (List.mem_map_of_mem (fun c => c.text.length) hc)
    omega
  · exact fun hov hex fuel =>
      splitLongChunks_none hash maxChars overlapChars hov chunks hex fuel

/-- Witness for C10: both halves at concrete inputs — a short and a
long chunk split with window 3 and overlap 1 terminate with the stated
properties, and a long chunk with window 2 and overlap 3 never
finishes (shown here at fuel 5). -/
theorem split_long_chunks_spec_witness :
    (∃ fuel out,
      splitLongChunks (fun s => s)
        [⟨"a", "hi", []⟩, ⟨"b", "abcdefgh", []⟩] 3 1 fuel = some out ∧
      (∀ c ∈ out, c.text.length ≤ 3) ∧
      (∀ c ∈ [Chunk.mk "a" "hi" [], Chunk.mk "b" "abcdefgh" []],
        c.text.length ≤ 3 → c ∈ out)) ∧
    splitLongChunks (fun s => s) [⟨"b", "abcdefgh", []⟩] 2 3 5 = none :=
  ⟨(split_long_chunks_spec (fun s => s)
      [⟨"a", "hi", []⟩, ⟨"b", "abcdefgh", []⟩] 3 1).1 (by decide),
    (split_long_chunks_spec (fun s => s) [⟨"b", "abcdefgh", []⟩] 2 3).2
      (by decide) ⟨⟨"b", "abcdefgh", []⟩, by decide⟩ 5⟩

/-! ## Fusion dedup (C2) and empty-store behaviour (C3) -/

/-- What `_dedup` keeps of a given chunk id: nothing if the id was
already seen, otherwise exactly the first occurrence. -/
theorem dedupSeen_filter (cid : String) :
    ∀ (l : List RetrievalHit) (seen : List String),
      (dedupSeen seen l).filter (fun h => decide (h.chunk.chunk_id = cid)) =
        if cid ∈ seen then []
        else (l.filter (fun h => decide (h.chunk.chunk_id = cid))).take 1 := by
  intro l
  induction l with
  | nil => intro seen; rw [dedupSeen]; split <;> simp
  | cons h rest ih =>
    intro seen
    rw [dedupSeen]
    by_cases hseen : h.chunk.chunk_id ∈ seen
    · rw [if_pos hseen, ih seen]
      by_cases hc : cid ∈ seen
      · simp [hc]
      · have hne : ¬ (h.chunk.chunk_id = cid) := fun he => hc (he ▸ hseen)
        simp [hc, List.filter_cons, hne]
    · rw [if_neg hseen]
      by_cases hid : h.chunk.chunk_id = cid
      · have hc : ¬ cid ∈ seen := hid ▸ hseen
        rw [List.filter_cons, List.filter_cons]
        simp only [hid, decide_eq_true_eq, if_true]
        rw [ih (cid :: seen), if_pos (List.mem_cons_self _ _), if_neg hc]
        simp
      · rw [List.filter_cons]
        simp only [decide_eq_true_eq]
        rw [if_neg hid, ih (h.chunk.chunk_id :: seen)]
        by_cases hc : cid ∈ seen
        · rw [if_pos (List.mem_cons_of_mem _ hc), if_pos hc]
        · have hnotc : ¬ cid ∈ h.chunk.chunk_id :: seen := by
            intro hmem
            rcases List.mem_cons.mp hmem with he | he
            · exact hid he.symm
            · exact hc he
          rw [if_neg hnotc, if_neg hc, List.filter_cons]
          simp only [decide_eq_true_eq]
          rw [if_neg hid]

/-- C2: with no reranker configured, `HybridRetriever.retrieve` returns
the concatenation of the lexical list followed by the semantic list,
deduplicated by chunk id keeping the first occurrence, truncated to
`top_k_rerank` in that fusion order; and any id present in the lexical
list appears in the fused list exactly once, as its first lexical
occurrence (hence with its lexical-pass score). -/
theorem hybrid_fusion_dedup (r : HybridRetriever) (hr : r.reranker = none)
    (query : String) (topKBm25 topKVector topKRerank : Nat) (cid : String)
    (hlex : cid ∈ (r.store.searchBm25 query topKBm25).map
      (fun h => h.chunk.chunk_id)) :
    r.retrieve query topKBm25 topKVector topKRerank =
      (dedup (r.store.searchBm25 query topKBm25 ++
        r.store.searchVector query topKVector)).take topKRerank ∧
    (dedup (r.store.searchBm25 query topKBm25 ++
        r.store.searchVector query topKVector)).filter
        (fun h => decide (h.chunk.chunk_id = cid)) =
      ((r.store.searchBm25 query topKBm25).filter
        (fun h => decide (h.chunk.chunk_id = cid))).take 1 ∧
    ((dedup (r.store.searchBm25 query topKBm25 ++
        r.store.searchVector query topKVector)).filter
        (fun h => decide (h.chunk.chunk_id = cid))).length = 1 := by
  obtain ⟨b, hb, hbid⟩ := List.mem_map.mp hlex
  have hbf : b ∈ (r.store.searchBm25 query topKBm25).filter
      (fun h => decide (h.chunk.chunk_id = cid)) :=
    List.mem_filter.mpr ⟨hb, decide_eq_true hbid⟩
  obtain ⟨hd, tl, hcons⟩ :=
    List.exists_cons_of_ne_nil (List.ne_nil_of_mem hbf)
  have hfilter : (dedup (r.store.searchBm25 query topKBm25 ++
      r.store.searchVector query topKVector)).filter
      (fun h => decide (h.chunk.chunk_id = cid)) =
      ((r.store.searchBm25 query topKBm25).filter
        (fun h => decide (h.chunk.chunk_id = cid))).take 1 := by
    unfold dedup
    rw [dedupSeen_filter cid _ [], if_neg (List.not_mem_nil cid),
      List.filter_append, hcons]
    simp
  refine ⟨?_, hfilter, ?_⟩
  · unfold HybridRetriever.retrieve
    rw [hr]
  · rw [hfilter, hcons]
    simp

/-- Witness for C2: a concrete store where the one chunk is returned by
both searches; the fused list keeps it once with the lexical score. -/
theorem hybrid_fusion_dedup_witness :
    (HybridRetriever.mk fullStore none).retrieve "hello" 5 5 5 =
      (dedup (fullStore.searchBm25 "hello" 5 ++
        fullStore.searchVector "hello" 5)).take 5 ∧
    (dedup (fullStore.searchBm25 "hello" 5 ++
        fullStore.searchVector "hello" 5)).filter
        (fun h => decide (h.chunk.chunk_id = "c0")) =
      ((fullStore.searchBm25 "hello" 5).filter
        (fun h => decide (h.chunk.chunk_id = "c0"))).take 1 ∧
    ((dedup (fullStore.searchBm25 "hello" 5 ++
        fullStore.searchVector "hello" 5)).filter
        (fun h => decide (h.chunk.chunk_id = "c0"))).length = 1 :=
  hybrid_fusion_dedup (HybridRetriever.mk fullStore none) rfl "hello" 5 5 5
    "c0" (by decide)

/-- Zero scores stay zero through `getD`. -/
theorem map_zero_getD {α : Type} : ∀ (l : List α) (i : Nat),
    (l.map (fun _ => (0 : Rat))).getD i 0 = 0
  | [], _ => by simp [List.getD]
  | _ :: _, 0 => rfl
  | _ :: l, i + 1 => map_zero_getD l i

/-- C3 (amended): for every `k`, `retrieve` on a store with neither a
BM25 corpus nor a vector index returns the empty sequence (and, being a
total function, raises nothing); and on any store, a query that
tokenizes to nothing (in particular the empty query) makes every
lexical hit carry score 0 — the empty query does not fail, but it does
not yield an empty result on a non-empty store. -/
theorem retrieve_empty_store_empty_query (r : HybridRetriever) :
    (∀ (query : String) (topKBm25 topKVector topKRerank : Nat),
      r.store.bm25 = none → r.store.faissIndex = none →
      r.retrieve query topKBm25 topKVector topKRerank = []) ∧
    (∀ (query : String) (k : Nat), tokenize query = [] →
      ∀ h ∈ r.store.searchBm25 query k, h.score = 0) := by
  constructor
  · intro query kb kv kr hbm hfa
    unfold HybridRetriever.retrieve
    unfold IndexStore.searchBm25 IndexStore.searchVector
    rw [hbm, hfa]
    dsimp only
    cases r.reranker <;> simp [dedup, dedupSeen]
  · intro query k htok h hmem
    unfold IndexStore.searchBm25 at hmem
    rcases hbm : r.store.bm25 with _ | m
    · rw [hbm] at hmem
      exact absurd hmem (List.not_mem_nil h)
    · rw [hbm] at hmem
      dsimp only at hmem
      rw [htok] at hmem
      have hscores : m.getScores [] = m.corpus.map (fun _ => (0 : Rat)) := rfl
      rw [hscores] at hmem
      unfold IndexStore.hitsFrom at hmem
      obtain ⟨row, hrow, heq⟩ := List.mem_filterMap.mp hmem
      obtain ⟨i, _, hi⟩ := List.mem_map.mp hrow
      split at heq
      · have : h = ⟨row.2, _⟩ := (Option.some.injEq _ _).mp heq.symm
        rw [this]
        show row.2 = 0
        rw [← hi]
        exact map_zero_getD m.corpus i
      · exact absurd heq (Option.noConfusion)

/-- Witness for C3: the empty store answers any query with the empty
list, and the first-and-only hit the lexical-only store returns for the
empty query carries score 0. -/
theorem retrieve_empty_store_empty_query_witness :
    (HybridRetriever.mk emptyStore none).retrieve "anything" 5 5 5 = [] ∧
    (⟨0, sampleChunk⟩ : RetrievalHit).score = 0 :=
  ⟨(retrieve_empty_store_empty_query (HybridRetriever.mk emptyStore none)).1
      "anything" 5 5 5 rfl rfl,
    (retrieve_empty_store_empty_query (HybridRetriever.mk lexOnlyStore none)).2
      "" 5 (by decide) ⟨0, sampleChunk⟩ (by decide)⟩

/-- Counterexample to C3 as stated: on a non-empty store the empty
query does not return the empty sequence — the BM25 pass scores every
document 0 and still returns the top `k` of them. -/
theorem retrieve_empty_query_nonempty_counterexample :
    (HybridRetriever.mk lexOnlyStore none).retrieve "" 5 5 5 ≠ [] := by
  decide

/-! ## Graph traversal (C1) -/

/-- C1 evaluated on the spec's own scenario: in the graph where `foo`
calls `bar` and `bar` calls `baz` (and nothing else), the code returns
only the one-hop neighbour `{bar}` at `max_hops = 2` — not the
specified `{bar, baz}` — because `related` is enlarged with the new
level before the next frontier is computed, so the frontier
`next_level - related` is empty after the first round.  At
`max_hops = 1` the result `{bar}` agrees with the spec. -/
theorem get_related_entities_stops_after_one_hop :
    fooBarBazGraph.getRelatedEntities "f.py:foo" 2 = ["f.py:bar"] ∧
    fooBarBazGraph.getRelatedEntities "f.py:foo" 1 = ["f.py:bar"] ∧
    "f.py:baz" ∉ fooBarBazGraph.getRelatedEntities "f.py:foo" 2 := by
  decide

/-! ## Graph expansion score law (C5) -/

/-- Every hit synthesized by the innermost expansion loop carries 80%
of the seed hit's score and the graph-expansion metadata type. -/
theorem expandRelatedLoop_score (g : CodeGraph) (hit : RetrievalHit)
    (seedId : String) :
    ∀ (rids seen : List String),
      ∀ e ∈ (expandRelatedLoop g hit seedId rids seen).1,
        e.score = hit.score * 0.8 ∧
        e.chunk.meta.get "type" = some (.s "graph_expansion") := by
  intro rids
  induction rids with
  | nil => intro seen e he; exact absurd he (List.not_mem_nil e)
  | cons rid rest ih =>
    intro seen e he
    rw [expandRelatedLoop] at he
    dsimp only at he
    split at he
    · exact ih _ e he
    · split at he
      · split at he
        · rcases List.mem_cons.mp he with he | he
          · subst he; exact ⟨rfl, rfl⟩
          · exact ih _ e he
        · exact ih _ e he
      · exact ih _ e he

/-- The per-hit loop only emits hits from the innermost loop. -/
theorem expandEntityIdsLoop_score (g : CodeGraph) (maxHops maxExpanded : Nat)
    (hit : RetrievalHit) :
    ∀ (eids seen : List String),
      ∀ e ∈ (expandEntityIdsLoop g maxHops maxExpanded hit eids seen).1,
        e.score = hit.score * 0.8 ∧
        e.chunk.meta.get "type" = some (.s "graph_expansion") := by
  intro eids
  induction eids with
  | nil => intro seen e he; exact absurd he (List.not_mem_nil e)
  | cons eid rest ih =>
    intro seen e he
    rw [expandEntityIdsLoop] at he
    dsimp only at he
    split at he
    · exact ih _ e he
    · rcases List.mem_append.mp he with he | he
      · exact expandRelatedLoop_score g hit eid _ _ e he
      · exact ih _ e he

/-- Every hit `_expand_with_graph` emits comes from some base hit,
with the score law and the metadata tag. -/
theorem expandHitsLoop_score (g : CodeGraph) (maxHops maxExpanded : Nat) :
    ∀ (hits : List RetrievalHit) (seen : List String),
      ∀ e ∈ (expandHitsLoop g maxHops maxExpanded hits seen).1,
        ∃ b ∈ hits, e.score = b.score * 0.8 ∧
          e.chunk.meta.get "type" = some (.s "graph_expansion") := by
  intro hits
  induction hits with
  | nil => intro seen e he; exact absurd he (List.not_mem_nil e)
  | cons hit rest ih =>
    intro seen e he
    rw [expandHitsLoop] at he
    dsimp only at he
    rcases List.mem_append.mp he with he | he
    · obtain ⟨h1, h2⟩ := expandEntityIdsLoop_score g maxHops maxExpanded hit _ _ e he
      exact ⟨hit, List.mem_cons_self _ _, h1, h2⟩
    · obtain ⟨b, hb, h1, h2⟩ := ih _ e he
      exact ⟨b, List.mem_cons_of_mem _ hb, h1, h2⟩

/-- C5: every expansion fragment that `_expand_with_graph` synthesizes
from a base hit's graph neighborhood scores exactly `0.8` times that
base hit's score, before any rerank, and carries the distinguishing
`graph_expansion` metadata type. -/
theorem graph_expansion_score_law (g : CodeGraph) (maxHops maxExpanded : Nat)
    (baseHits : List RetrievalHit) (e : RetrievalHit)
    (he : e ∈ expandWithGraph g maxHops maxExpanded baseHits) :
    ∃ b ∈ baseHits, e.score = b.score * 0.8 ∧
      e.chunk.meta.get "type" = some (.s "graph_expansion") :=
  expandHitsLoop_score g maxHops maxExpanded baseHits [] e he

/-- Witness for C5: the concrete expansion of `bar` from a seed hit
with score 1 over the `foo → bar → baz` graph. -/
theorem graph_expansion_score_law_witness :
    ∃ b ∈ [baseHitAt 1], (sampleExpansion 1).score = b.score * 0.8 ∧
      (sampleExpansion 1).chunk.meta.get "type" =
        some (.s "graph_expansion") :=
  graph_expansion_score_law fooBarBazGraph 2 4 [baseHitAt 1]
    (sampleExpansion 1) (by decide)

/-! ## Expansion never outranks its seed (C6) -/

/-- Left cancellation of string concatenation. -/
theorem string_append_left_cancel {p a b : String} (h : p ++ a = p ++ b) :
    a = b := by
  have hd := congrArg String.data h
  rw [String.data_append, String.data_append] at hd
  have hab := List.append_cancel_left hd
  cases a; cases b; exact congrArg String.mk hab

/-- Invariants of the innermost expansion loop: the seen set only
grows; every emitted hit is tagged `graph:<rid>` for a previously
unseen, subsequently seen `rid`; and the emitted chunk ids are
pairwise distinct. -/
theorem expandRelatedLoop_ids (g : CodeGraph) (hit : RetrievalHit)
    (seedId : String) :
    ∀ (rids seen : List String),
      (∀ x ∈ seen, x ∈ (expandRelatedLoop g hit seedId rids seen).2) ∧
      (∀ e ∈ (expandRelatedLoop g hit seedId rids seen).1,
        ∃ rid, e.chunk.chunk_id = "graph:" ++ rid ∧ rid ∉ seen ∧
          rid ∈ (expandRelatedLoop g hit seedId rids seen).2) ∧
      ((expandRelatedLoop g hit seedId rids seen).1.map
        (fun e => e.chunk.chunk_id)).Nodup := by
  intro rids
  induction rids with
  | nil =>
    intro seen
    exact ⟨fun x hx => hx, fun e he => absurd he (List.not_mem_nil e),
      List.nodup_nil⟩
  | cons rid rest ih =>
    intro seen
    rw [expandRelatedLoop]
    dsimp only
    split
    · exact ih seen
    · next hrid =>
      have hsub : ∀ x ∈ seen, x ∈ seen ++ [rid] :=
        fun x hx => List.mem_append_left _ hx
      split
      · split
        · obtain ⟨ihseen, ihmem, ihnodup⟩ := ih (seen ++ [rid])
          refine ⟨fun x hx => ihseen x (hsub x hx), ?_, ?_⟩
          · intro e he
            rcases List.mem_cons.mp he with he | he
            · subst he
              exact ⟨rid, rfl, hrid,
                ihseen rid (List.mem_append_right seen (List.mem_singleton.mpr rfl))⟩
            · obtain ⟨rid', hid', hnot', hin'⟩ := ihmem e he
              exact ⟨rid', hid', fun hx => hnot' (hsub rid' hx), hin'⟩
          · rw [List.map_cons, List.nodup_cons]
            refine ⟨fun hmemm => ?_, ihnodup⟩
            obtain ⟨e2, he2, hide⟩ := List.mem_map.mp hmemm
            obtain ⟨rid', hid', hnot', _⟩ := ihmem e2 he2
            have heq : ("graph:" : String) ++ rid' = "graph:" ++ rid := by
              rw [← hid']
              exact hide
            have : rid' = rid := string_append_left_cancel heq
            exact hnot' (this ▸
              List.mem_append_right seen (List.mem_singleton.mpr rfl))
        · obtain ⟨ihseen, ihmem, ihnodup⟩ := ih (seen ++ [rid])
          refine ⟨fun x hx => ihseen x (hsub x hx), fun e he => ?_, ihnodup⟩
          obtain ⟨rid', hid', hnot', hin'⟩ := ihmem e he
          exact ⟨rid', hid', fun hx => hnot' (hsub rid' hx), hin'⟩
      · obtain ⟨ihseen, ihmem, ihnodup⟩ := ih (seen ++ [rid])
        refine ⟨fun x hx => ihseen x (hsub x hx), fun e he => ?_, ihnodup⟩
        obtain ⟨rid', hid', hnot', hin'⟩ := ihmem e he
        exact ⟨rid', hid', fun hx => hnot' (hsub rid' hx), hin'⟩

/-- The same invariants for the per-hit loop over entity ids. -/
theorem expandEntityIdsLoop_ids (g : CodeGraph) (maxHops maxExpanded : Nat)
    (hit : RetrievalHit) :
    ∀ (eids seen : List String),
      (∀ x ∈ seen, x ∈ (expandEntityIdsLoop g maxHops maxExpanded hit eids seen).2) ∧
      (∀ e ∈ (expandEntityIdsLoop g maxHops maxExpanded hit eids seen).1,
        ∃ rid, e.chunk.chunk_id = "graph:" ++ rid ∧ rid ∉ seen ∧
          rid ∈ (expandEntityIdsLoop g maxHops maxExpanded hit eids seen).2) ∧
      ((expandEntityIdsLoop g maxHops maxExpanded hit eids seen).1.map
        (fun e => e.chunk.chunk_id)).Nodup := by
  intro eids
  induction eids with
  | nil =>
    intro seen
    exact ⟨fun x hx => hx, fun e he => absurd he (List.not_mem_nil e),
      List.nodup_nil⟩
  | cons eid rest ih =>
    intro seen
    rw [expandEntityIdsLoop]
    dsimp only
    split
    · exact ih seen
    · obtain ⟨rseen, rmem, rnodup⟩ :=
        expandRelatedLoop_ids g hit eid
          ((g.getRelatedEntities eid maxHops).take maxExpanded) (seen ++ [eid])
      obtain ⟨eseen, emem, enodup⟩ := ih (expandRelatedLoop g hit eid
        ((g.getRelatedEntities eid maxHops).take maxExpanded)
        (seen ++ [eid])).2
      have hsub : ∀ x ∈ seen,
          x ∈ (expandEntityIdsLoop g maxHops maxExpanded hit rest
            (expandRelatedLoop g hit eid
              ((g.getRelatedEntities eid maxHops).take maxExpanded)
              (seen ++ [eid])).2).2 :=
        fun x hx => eseen x (rseen x (List.mem_append_left _ hx))
      refine ⟨hsub, ?_, ?_⟩
      · intro e he
        rcases List.mem_append.mp he with he | he
        · obtain ⟨rid, hid, hnot, hin⟩ := rmem e he
          exact ⟨rid, hid,
            fun hx => hnot (List.mem_append_left _ hx), eseen rid hin⟩
        · obtain ⟨rid, hid, hnot, hin⟩ := emem e he
          exact ⟨rid, hid,
            fun hx => hnot (rseen rid (List.mem_append_left _ hx)), hin⟩
      · rw [List.map_append]
        rw [List.nodup_append]
        refine ⟨rnodup, enodup, ?_⟩
        intro x hx hy
        obtain ⟨e1, he1, hid1⟩ := List.mem_map.mp hx
        obtain ⟨e2, he2, hid2⟩ := List.mem_map.mp hy
        obtain ⟨rid1, hr1, _, hin1⟩ := rmem e1 he1
        obtain ⟨rid2, hr2, hnot2, _⟩ := emem e2 he2
        have heq : ("graph:" : String) ++ rid1 = "graph:" ++ rid2 := by
          rw [← hr1, ← hr2, hid1, hid2]
        have : rid1 = rid2 := string_append_left_cancel heq
        exact hnot2 (this ▸ hin1)

/-- The same invariants for the outer loop over base hits: every
expansion hit id has the `graph:` shape and the ids are pairwise
distinct. -/
theorem expandHitsLoop_ids (g : CodeGraph) (maxHops maxExpanded : Nat) :
    ∀ (hits : List RetrievalHit) (seen : List String),
      (∀ x ∈ seen, x ∈ (expandHitsLoop g maxHops maxExpanded hits seen).2) ∧
      (∀ e ∈ (expandHitsLoop g maxHops maxExpanded hits seen).1,
        ∃ rid, e.chunk.chunk_id = "graph:" ++ rid ∧ rid ∉ seen ∧
          rid ∈ (expandHitsLoop g maxHops maxExpanded hits seen).2) ∧
      ((expandHitsLoop g maxHops maxExpanded hits seen).1.map
        (fun e => e.chunk.chunk_id)).Nodup := by
  intro hits
  induction hits with
  | nil =>
    intro seen
    exact ⟨fun x hx => hx, fun e he => absurd he (List.not_mem_nil e),
      List.nodup_nil⟩
  | cons hit rest ih =>
    intro seen
    rw [expandHitsLoop]
    dsimp only
    obtain ⟨rseen, rmem, rnodup⟩ :=
      expandEntityIdsLoop_ids g maxHops maxExpanded hit
        (chunkToEntities g hit.chunk) seen
    obtain ⟨eseen, emem, enodup⟩ := ih (expandEntityIdsLoop g maxHops
      maxExpanded hit (chunkToEntities g hit.chunk) seen).2
    refine ⟨fun x hx => eseen x (rseen x hx), ?_, ?_⟩
    · intro e he
      rcases List.mem_append.mp he with he | he
      · obtain ⟨rid, hid, hnot, hin⟩ := rmem e he
        exact ⟨rid, hid, hnot, eseen rid hin⟩
      · obtain ⟨rid, hid, hnot, hin⟩ := emem e he
        exact ⟨rid, hid, fun hx => hnot (rseen rid hx), hin⟩
    · rw [List.map_append, List.nodup_append]
      refine ⟨rnodup, enodup, ?_⟩
      intro x hx hy
      obtain ⟨e1, he1, hid1⟩ := List.mem_map.mp hx
      obtain ⟨e2, he2, hid2⟩ := List.mem_map.mp hy
      obtain ⟨rid1, hr1, _, hin1⟩ := rmem e1 he1
      obtain ⟨rid2, hr2, hnot2, _⟩ := emem e2 he2
      have heq : ("graph:" : String) ++ rid1 = "graph:" ++ rid2 := by
        rw [← hr1, ← hr2, hid1, hid2]
      have : rid1 = rid2 := string_append_left_cancel heq
      exact hnot2 (this ▸ hin1)

/-- The merge loop keeps a list untouched when its ids are fresh and
pairwise distinct. -/
theorem mergeKeepFirstLoop_eq_self :
    ∀ (l : List RetrievalHit) (seen : List String),
      (l.map (fun h => h.chunk.chunk_id)).Nodup →
      (∀ e ∈ l, e.chunk.chunk_id ∉ seen) →
      mergeKeepFirstLoop seen l = l := by
  intro l
  induction l with
  | nil => intro seen _ _; rfl
  | cons h rest ih =>
    intro seen hnodup hfresh
    rw [mergeKeepFirstLoop,
      if_neg (hfresh h (List.mem_cons_self _ _))]
    rw [List.map_cons, List.nodup_cons] at hnodup
    rw [ih (seen ++ [h.chunk.chunk_id]) hnodup.2]
    intro e he hmem
    rcases List.mem_append.mp hmem with hmem | hmem
    · exact hfresh e (List.mem_cons_of_mem _ he) hmem
    · exact hnodup.1 (List.mem_singleton.mp hmem ▸
        List.mem_map_of_mem (fun h => h.chunk.chunk_id) he)

/-- A two-element sublist locates both elements, in order. -/
theorem sublist_pair_get {α : Type} {a b : α} :
    ∀ {L : List α}, List.Sublist [a, b] L →
      ∃ (i j : Fin L.length), (i : ℕ) < j ∧ L.get i = a ∧ L.get j = b := by
  intro L
  induction L with
  | nil => intro h; exact absurd (h.length_le) (by simp)
  | cons x L ih =>
    intro h
    cases h with
    | cons _ h' =>
      obtain ⟨i, j, hij, ha, hb⟩ := ih h'
      exact ⟨i.succ, j.succ, by simpa using hij, ha, hb⟩
    | cons₂ _ h' =>
      have hbmem : b ∈ L := List.singleton_sublist.mp h'
      obtain ⟨n, hn⟩ := List.mem_iff_get.mp hbmem
      exact ⟨⟨0, by simp⟩, n.succ, by simp, rfl, hn⟩

/-- C6 (amended): when every base hit has a nonnegative score and no
base hit uses the reserved `graph:` id prefix, every expansion fragment
appears in the merged, score-sorted output of
`GraphEnhancedRetriever._merge_hits` strictly after some base hit whose
score it is 80% of — expansion results never outrank the seed hits
they are derived from. -/
theorem graph_expansion_never_outranks (g : CodeGraph)
    (maxHops maxExpanded : Nat) (baseHits : List RetrievalHit)
    (hpos : ∀ b ∈ baseHits, 0 ≤ b.score)
    (hids : ∀ b ∈ baseHits,
      ¬ ("graph:".toList <+: b.chunk.chunk_id.toList)) :
    ∀ e ∈ expandWithGraph g maxHops maxExpanded baseHits,
      ∃ (i j : Fin (graphMergeHits baseHits
          (expandWithGraph g maxHops maxExpanded baseHits)).length),
        (i : ℕ) < j ∧
        (graphMergeHits baseHits
          (expandWithGraph g maxHops maxExpanded baseHits)).get i ∈ baseHits ∧
        e.score = ((graphMergeHits baseHits
          (expandWithGraph g maxHops maxExpanded baseHits)).get i).score
            * 0.8 ∧
        (graphMergeHits baseHits
          (expandWithGraph g maxHops maxExpanded baseHits)).get j = e := by
  intro e he
  obtain ⟨b, hb, hscore, _⟩ :=
    graph_expansion_score_law g maxHops maxExpanded baseHits e he
  obtain ⟨_, hmem, hnodup⟩ := expandHitsLoop_ids g maxHops maxExpanded baseHits []
  have hnodup' : ((expandWithGraph g maxHops maxExpanded baseHits).map
      (fun h => h.chunk.chunk_id)).Nodup := hnodup
  have hfresh : ∀ ee ∈ expandWithGraph g maxHops maxExpanded baseHits,
      ee.chunk.chunk_id ∉ baseHits.map (fun h => h.chunk.chunk_id) := by
    intro ee hee hin
    obtain ⟨bb, hbb, hbid⟩ := List.mem_map.mp hin
    obtain ⟨rid, hid, _, _⟩ := hmem ee hee
    apply hids bb hbb
    rw [hbid, hid]
    have hdata : ("graph:" ++ rid).data = "graph:".data ++ rid.data :=
      String.data_append _ _
    exact ⟨rid.data, hdata.symm⟩
  have hmerge : mergeKeepFirst baseHits
      (expandWithGraph g maxHops maxExpanded baseHits) =
      baseHits ++ expandWithGraph g maxHops maxExpanded baseHits := by
    unfold mergeKeepFirst
    rw [mergeKeepFirstLoop_eq_self _ _ hnodup' hfresh]
  have hpair : List.Sublist [b, e] (mergeKeepFirst baseHits
      (expandWithGraph g maxHops maxExpanded baseHits)) := by
    rw [hmerge]
    exact List.Sublist.append (List.singleton_sublist.mpr hb)
      (List.singleton_sublist.mpr he)
  have hge : scoreGe b e := by
    show e.score ≤ b.score
    rw [hscore]
    nlinarith [hpos b hb]
  have hsorted : List.Sublist [b, e] (graphMergeHits baseHits
      (expandWithGraph g maxHops maxExpanded baseHits)) :=
    List.pair_sublist_insertionSort hge hpair
  obtain ⟨i, j, hij, ha, hbj⟩ := sublist_pair_get hsorted
  refine ⟨i, j, hij, ?_, ?_, hbj⟩
  · rw [ha]; exact hb
  · rw [ha]; exact hscore

/-- Witness for C6: over the `foo → bar → baz` graph with one seed hit
of score 1, the sorted merge places the seed before its 0.8-scored
expansion. -/
theorem graph_expansion_never_outranks_witness :
    ∃ (i j : Fin (graphMergeHits [baseHitAt 1]
        (expandWithGraph fooBarBazGraph 2 4 [baseHitAt 1])).length),
      (i : ℕ) < j ∧
      (graphMergeHits [baseHitAt 1]
        (expandWithGraph fooBarBazGraph 2 4 [baseHitAt 1])).get i
          ∈ [baseHitAt 1] ∧
      (sampleExpansion 1).score = ((graphMergeHits [baseHitAt 1]
        (expandWithGraph fooBarBazGraph 2 4 [baseHitAt 1])).get i).score
          * 0.8 ∧
      (graphMergeHits [baseHitAt 1]
        (expandWithGraph fooBarBazGraph 2 4 [baseHitAt 1])).get j =
          sampleExpansion 1 :=
  graph_expansion_never_outranks fooBarBazGraph 2 4 [baseHitAt 1]
    (by decide) (by decide) (sampleExpansion 1) (by decide)

/-- Counterexample to C6 as stated ("for all seed scores"): with a seed
hit of score -1 the expansion scores -0.8 and is sorted strictly above
its seed, so no base hit appears at or before the expansion's position
with the 0.8 score relation. -/
theorem graph_expansion_outranks_counterexample :
    ¬ (∀ e ∈ expandWithGraph fooBarBazGraph 2 4 [baseHitAt (-1)],
      ∃ (i j : Fin (graphMergeHits [baseHitAt (-1)]
          (expandWithGraph fooBarBazGraph 2 4 [baseHitAt (-1)])).length),
        (i : ℕ) ≤ j ∧
        (graphMergeHits [baseHitAt (-1)]
          (expandWithGraph fooBarBazGraph 2 4 [baseHitAt (-1)])).get i
            ∈ [baseHitAt (-1)] ∧
        e.score = ((graphMergeHits [baseHitAt (-1)]
          (expandWithGraph fooBarBazGraph 2 4 [baseHitAt (-1)])).get i).score
            * 0.8 ∧
        (graphMergeHits [baseHitAt (-1)]
          (expandWithGraph fooBarBazGraph 2 4 [baseHitAt (-1)])).get j = e) := by
  decide

/-! ## Refined regeneration pass (C4) -/

/-- C4 (amended): the refined regeneration pass runs exactly when
self-correction is enabled, the initial retrieval is non-empty, the
first-pass confidence is below 0.5, and the refined retrieval is
non-empty — whether or not the refined retrieval contains any fragment
id absent from the original hits. -/
theorem refined_pass_characterization (o : Orchestrator) (question : String)
    (topKBm25 topKVector topKRerank maxContextChunks : Nat)
    (enableSelfCorrection : Bool) :
    (o.query question topKBm25 topKVector topKRerank maxContextChunks
        enableSelfCorrection).refinedPass = true ↔
      (enableSelfCorrection = true ∧
       o.retriever question topKBm25 topKVector topKRerank ≠ [] ∧
       estimateConfidence
         (o.llm (firstPassPrompt question
           (formatContext (o.retriever question topKBm25 topKVector topKRerank)
             maxContextChunks)))
         (formatContext (o.retriever question topKBm25 topKVector topKRerank)
           maxContextChunks) question < 1/2 ∧
       o.retriever (refineQuery question
         (o.llm (firstPassPrompt question
           (formatContext (o.retriever question topKBm25 topKVector topKRerank)
             maxContextChunks))))
         topKBm25 topKVector topKRerank ≠ []) := by
  unfold Orchestrator.query
  dsimp only
  split
  · next h1 => simp [h1]
  · next h1 =>
    split
    · next h2 =>
      split
      · next h3 =>
        split
        · next h4 => simp_all
        · next h4 => simp_all
      · next h3 => simp_all
    · next h2 => simp_all

/-- Counterexample to C4 as stated: with a constant retriever and a
refusing model, the refined regeneration pass runs even though the
refined retrieval contains no fragment id that was not already in the
original hit set. -/
theorem refined_pass_counterexample :
    (sampleOrchestrator.query "q" 5 5 5 8 true).refinedPass = true ∧
    ((sampleOrchestrator.retriever
        (refineQuery "q" (sampleOrchestrator.llm
          (firstPassPrompt "q" (formatContext
            (sampleOrchestrator.retriever "q" 5 5 5) 8)))) 5 5 5).filter
      (fun h => ! ((sampleOrchestrator.retriever "q" 5 5 5).map
        (fun b => b.chunk.chunk_id)).contains h.chunk.chunk_id)) = [] := by
  constructor
  · decide
  · decide

end CodexRAG
